import Mathlib

set_option maxRecDepth 8000

/-!
Verification development for honkpack (src/main.c): a streaming
run-length-encoding (RLE) / literal-block compressor and decompressor.

Bytes are modelled as natural numbers (inputs are < 256); the 127-byte
block buffer of the C union state is modelled as a total function
`Nat → Nat` updated at explicit indices, matching the array stores of the
source.  Each chunk the compressor emits (via `write_rle_run` /
`write_block`) is recorded as a `Chunk`; the byte stream written to the
output is the concatenation of the encodings of those chunks, exactly as
the C writer functions produce it.
-/

/-- Chunk emitted on the wire: an RLE run (`rle byte count`) or a literal
block (`lit bytes`). -/
inductive Chunk where
  | rle (byte : Nat) (count : Nat)
  | lit (bytes : List Nat)
  deriving DecidableEq, Repr

/-- The compression states of `honk_compress_state_t` in src/main.c. -/
inductive honk_compress_state_t where
  | rle
  | block
  deriving DecidableEq, Repr

/-- The decompression states of `honk_decompress_state_t` in src/main.c. -/
inductive honk_decompress_state_t where
  | status
  | rle
  | block
  deriving DecidableEq, Repr

/-- Array store `f[i] = v`, modelling a write into the 127-byte block
buffer of the C state. -/
def updateFn (f : Nat → Nat) (i v : Nat) : Nat → Nat :=
  fun j => if j = i then v else f j

/-- The compression half of the C union `honk_state_t`: state tag, byte
count of the current run/block, last byte seen, and the block buffer. -/
structure CompressState where
  compress_state : honk_compress_state_t
  compress_bytes_count : Nat
  last_byte : Nat
  block : Nat → Nat

/-- The decompression half of the C union `honk_state_t`. -/
structure DecompressState where
  decompress_state : honk_decompress_state_t
  decompress_bytes_count : Nat
  deriving DecidableEq, Repr

/-- Embedding of `honk_compress_init`: start in the empty block state.
The C code leaves `last_byte` and the buffer uninitialized; they are never
read before being written (reads are guarded by `compress_bytes_count`),
so we pick 0. -/
def honk_compress_init : CompressState :=
  { compress_state := .block, compress_bytes_count := 0,
    last_byte := 0, block := fun _ => 0 }

/-- Embedding of `honk_compress_process_byte` (src/main.c:154-231).
Returns the new state and the list of chunks emitted during the call. -/
def honk_compress_process_byte (state : CompressState) (new_byte : Nat) :
    CompressState × List Chunk :=
  match state.compress_state with
  | .rle =>
    if new_byte ≠ state.last_byte then
      -- close the run, move to a block holding just the new byte
      ({ state with last_byte := new_byte,
                    block := updateFn state.block 0 new_byte,
                    compress_bytes_count := 1,
                    compress_state := .block },
       [Chunk.rle state.last_byte state.compress_bytes_count])
    else if state.compress_bytes_count + 1 = 127 then
      -- the run is full: flush and return to the empty block state
      ({ state with compress_bytes_count := 0, compress_state := .block },
       [Chunk.rle state.last_byte 127])
    else
      ({ state with compress_bytes_count := state.compress_bytes_count + 1 }, [])
  | .block =>
    if 0 < state.compress_bytes_count ∧ new_byte = state.last_byte then
      -- the last byte is *not* part of the block
      let actual_bytes_count := state.compress_bytes_count - 1
      ({ state with compress_bytes_count := 2, compress_state := .rle },
       if 0 < actual_bytes_count then
         [Chunk.lit ((List.range actual_bytes_count).map state.block)]
       else [])
    else
      -- append the new byte to the block buffer
      let block' := updateFn state.block state.compress_bytes_count new_byte
      if state.compress_bytes_count + 1 = 127 then
        -- the block is full: flush, stay in the empty block state
        ({ state with block := block', compress_bytes_count := 0 },
         [Chunk.lit ((List.range 127).map block')])
      else
        ({ state with block := block',
                      compress_bytes_count := state.compress_bytes_count + 1,
                      last_byte := new_byte }, [])

/-- Embedding of `honk_compress_finalize` (src/main.c:233-255): flush the
pending run, or the pending block when it is non-empty. -/
def honk_compress_finalize (state : CompressState) : List Chunk :=
  match state.compress_state with
  | .rle => [Chunk.rle state.last_byte state.compress_bytes_count]
  | .block =>
    if 0 < state.compress_bytes_count then
      [Chunk.lit ((List.range state.compress_bytes_count).map state.block)]
    else []

/-- Feed a list of bytes through the compress state machine, collecting
emitted chunks (the per-byte loop of `main`). -/
def compressSteps : CompressState → List Nat → CompressState × List Chunk
  | s, [] => (s, [])
  | s, b :: rest =>
    let p := honk_compress_process_byte s b
    let q := compressSteps p.1 rest
    (q.1, p.2 ++ q.2)

/-- All chunks emitted when compressing an input: per-byte processing from
the initial state, then finalize. -/
def compressChunks (input : List Nat) : List Chunk :=
  let p := compressSteps honk_compress_init input
  p.2 ++ honk_compress_finalize p.1

/-- Embedding of `write_status_byte` (src/main.c:114-124): the byte count
truncated to a byte, with bit 7 set for an RLE run. -/
def write_status_byte (is_rle : Bool) (bytes_count : Nat) : Nat :=
  let status_byte := bytes_count % 256
  if is_rle then status_byte ||| (1 <<< 7) else status_byte

/-- Bytes a chunk puts on the wire: `write_rle_run` emits the status byte
and the repeated byte once; `write_block` emits the status byte followed
by the block bytes. -/
def encodeChunk : Chunk → List Nat
  | .rle b n => [write_status_byte true n, b]
  | .lit l => write_status_byte false l.length :: l

/-- The full compressed byte stream for an input, as written by the C
program (chunks are written back to back). -/
def compress (input : List Nat) : List Nat :=
  ((compressChunks input).map encodeChunk).flatten

/-- Embedding of `honk_decompress_init`: start in the status state.  The C
code leaves `decompress_bytes_count` uninitialized; it is never read
before the status state assigns it, so we pick 0. -/
def honk_decompress_init : DecompressState :=
  { decompress_state := .status, decompress_bytes_count := 0 }

/-- Embedding of `honk_decompress_process_byte` (src/main.c:263-318).
Returns the new state and the bytes written to the output.  The block
branch decrements a `size_t`; every reachable block state has a count
≥ 1 (it is set from a non-zero status byte and counted down to 1), so the
subtraction never underflows. -/
def honk_decompress_process_byte (state : DecompressState) (new_byte : Nat) :
    DecompressState × List Nat :=
  match state.decompress_state with
  | .status =>
    let cnt := new_byte &&& 0x7F
    if cnt = 0 then
      ({ decompress_state := .status, decompress_bytes_count := cnt }, [])
    else if new_byte &&& (1 <<< 7) ≠ 0 then
      ({ decompress_state := .rle, decompress_bytes_count := cnt }, [])
    else
      ({ decompress_state := .block, decompress_bytes_count := cnt }, [])
  | .rle =>
    ({ state with decompress_state := .status },
     List.replicate state.decompress_bytes_count new_byte)
  | .block =>
    let cnt := state.decompress_bytes_count - 1
    if cnt = 0 then
      ({ decompress_state := .status, decompress_bytes_count := cnt }, [new_byte])
    else
      ({ state with decompress_bytes_count := cnt }, [new_byte])

/-- Feed a list of bytes through the decompress state machine, collecting
the output bytes (the per-byte loop of `main`). -/
def decompressSteps : DecompressState → List Nat → DecompressState × List Nat
  | s, [] => (s, [])
  | s, b :: rest =>
    let p := honk_decompress_process_byte s b
    let q := decompressSteps p.1 rest
    (q.1, p.2 ++ q.2)

/-- Embedding of `honk_decompress_finalize` (src/main.c:320-330): it only
checks the state and prints a message to stderr when the stream ended
outside the status state; it does not terminate the process. -/
def honk_decompress_finalize (state : DecompressState) : List String :=
  if state.decompress_state ≠ .status then
    ["Error while decompressing: Bad format"]
  else []

/-- The decompress-mode run of `main` on an input, with an output sink
that accepts every write: the decoded bytes, the stderr lines, and the
process exit status.  On this path the only `exit` calls live in
`write_byte` (sink failure, excluded here), so `main` falls through to
`return 0` even when finalize reports a bad format. -/
def decompress_main (input : List Nat) : List Nat × List String × Nat :=
  let p := decompressSteps honk_decompress_init input
  (p.2, honk_decompress_finalize p.1, 0)

/-- Raw bytes a chunk stands for: a run unfolds to `count` copies of its
byte, a literal block to its bytes. -/
def chunkContents : Chunk → List Nat
  | .rle b n => List.replicate n b
  | .lit l => l

/-- Declared length of a chunk: the value `write_status_byte` places in the
low 7 bits of the status byte. -/
def declaredLength : Chunk → Nat
  | .rle _ n => n
  | .lit l => l.length

/-- Concatenated raw contents of a chunk list. -/
def joinContents (cs : List Chunk) : List Nat :=
  (cs.map chunkContents).flatten

/-- Bytes held in the compressor state but not yet emitted: the current
run, or the used prefix of the block buffer. -/
def pendingBytes (σ : CompressState) : List Nat :=
  match σ.compress_state with
  | .rle => List.replicate σ.compress_bytes_count σ.last_byte
  | .block => (List.range σ.compress_bytes_count).map σ.block

/-- Well-formedness of an emitted chunk: runs carry between 2 and 127
bytes, literal blocks between 1 and 127. -/
def chunkWF : Chunk → Prop
  | .rle _ n => 2 ≤ n ∧ n ≤ 127
  | .lit l => 1 ≤ l.length ∧ l.length ≤ 127

/-- Invariant of the compressor state: in block mode the count stays below
127 (so buffer writes at index `compress_bytes_count` are in bounds) and
`last_byte` mirrors the most recently appended buffer byte; in RLE mode
the count stays in [2,126]. -/
def CInv (σ : CompressState) : Prop :=
  (σ.compress_state = .block →
    σ.compress_bytes_count ≤ 126 ∧
    (0 < σ.compress_bytes_count →
      σ.last_byte = σ.block (σ.compress_bytes_count - 1))) ∧
  (σ.compress_state = .rle →
    2 ≤ σ.compress_bytes_count ∧ σ.compress_bytes_count ≤ 126)

/-- Count stored in the decompressor state right after a full chunk has
been decoded (a run leaves its length behind, a block counts down to 0). -/
def afterCount : Chunk → Nat
  | .rle _ n => n
  | .lit _ => 0

/-- Reference recursion for literal accumulation: carrying a pending block,
append each byte and emit a full literal chunk whenever the pending block
reaches 127 bytes; returns the emitted chunks and the final pending
block. -/
def litRun (pending : List Nat) : List Nat → List Chunk × List Nat
  | [] => ([], pending)
  | b :: rest =>
    if pending.length + 1 = 127 then
      let q := litRun [] rest
      (Chunk.lit (pending ++ [b]) :: q.1, q.2)
    else
      litRun (pending ++ [b]) rest

/-- Output sink model for the I/O error paths: `accept i` says whether the
i-th write operation (an `fputc` or an `fwrite`) succeeds; the environment
tracks the operation index, the bytes actually written, and the lines
printed to stderr. -/
structure IOEnv where
  accept : Nat → Bool
  opIdx : Nat
  out : List Nat
  err : List String

/-- The message both `write_byte` and `write_block` print on a failed
write. -/
def writeErrMsg : String := "Error while writing to output file descriptor."

/-- Embedding of `write_byte` (src/main.c:105-112): on a failed `fputc` it
prints the error and calls `exit(EXIT_FAILURE)` — modelled as
`Except.error` carrying the final environment. -/
def write_byte_io (env : IOEnv) (new_byte : Nat) : Except IOEnv IOEnv :=
  if env.accept env.opIdx then
    Except.ok { env with opIdx := env.opIdx + 1, out := env.out ++ [new_byte] }
  else
    Except.error { env with opIdx := env.opIdx + 1, err := env.err ++ [writeErrMsg] }

/-- Embedding of `write_status_byte` through the sink model. -/
def write_status_byte_io (env : IOEnv) (is_rle : Bool) (bytes_count : Nat) :
    Except IOEnv IOEnv :=
  write_byte_io env (write_status_byte is_rle bytes_count)

/-- Embedding of `write_rle_run` (src/main.c:126-133): status byte, then
the run byte once, both through `write_byte`. -/
def write_rle_run_io (env : IOEnv) (byte : Nat) (count : Nat) :
    Except IOEnv IOEnv := do
  let env1 ← write_status_byte_io env true count
  write_byte_io env1 byte

/-- Embedding of `write_block` (src/main.c:135-145): status byte through
`write_byte`, then the block bytes through one `fwrite`.  When the
`fwrite` comes up short the C code prints the error but does NOT exit;
execution continues, so both branches return `Except.ok`. -/
def write_block_io (env : IOEnv) (blockBytes : List Nat) : Except IOEnv IOEnv := do
  let env1 ← write_status_byte_io env false blockBytes.length
  if env1.accept env1.opIdx then
    Except.ok { env1 with opIdx := env1.opIdx + 1, out := env1.out ++ blockBytes }
  else
    Except.ok { env1 with opIdx := env1.opIdx + 1, err := env1.err ++ [writeErrMsg] }

/-- Route one emitted chunk through the writer that the C compressor uses
for it. -/
def writeChunk_io (env : IOEnv) : Chunk → Except IOEnv IOEnv
  | .rle b n => write_rle_run_io env b n
  | .lit l => write_block_io env l

/-- Route a list of emitted chunks through the writers in order. -/
def writeChunks_io (env : IOEnv) : List Chunk → Except IOEnv IOEnv
  | [] => Except.ok env
  | c :: cs => do
    let env1 ← writeChunk_io env c
    writeChunks_io env1 cs

/-- One compress step against the sink model: the state transition of
`honk_compress_process_byte` together with the writes it performs (state
updates and writes do not interact, so the chunk emitted by the pure
transition is simply routed to the writers). -/
def honk_compress_process_byte_io (σ : CompressState) (env : IOEnv) (b : Nat) :
    Except IOEnv (CompressState × IOEnv) := do
  let p := honk_compress_process_byte σ b
  let env1 ← writeChunks_io env p.2
  Except.ok (p.1, env1)

/-- The compress-mode per-byte loop of `main` against the sink model. -/
def compressSteps_io (σ : CompressState) (env : IOEnv) :
    List Nat → Except IOEnv (CompressState × IOEnv)
  | [] => Except.ok (σ, env)
  | b :: rest => do
    let p ← honk_compress_process_byte_io σ env b
    compressSteps_io p.1 p.2 rest

/-- The whole compress-mode invocation of `main` against the sink model:
process every input byte, then finalize.  `Except.error` marks the paths
that called `exit(EXIT_FAILURE)`. -/
def compress_run_io (accept : Nat → Bool) (input : List Nat) : Except IOEnv IOEnv := do
  let env0 : IOEnv := { accept := accept, opIdx := 0, out := [], err := [] }
  let p ← compressSteps_io honk_compress_init env0 input
  writeChunks_io p.2 (honk_compress_finalize p.1)

/-- Final environment and process exit status of a compress-mode run:
`exit(EXIT_FAILURE)` yields 1, falling through `main` yields 0. -/
def compress_main_io (accept : Nat → Bool) (input : List Nat) : IOEnv × Nat :=
  match compress_run_io accept input with
  | Except.ok env => (env, 0)
  | Except.error env => (env, 1)

theorem compressSteps_append (s t : List Nat) : ∀ σ : CompressState,
    compressSteps σ (s ++ t) =
      ((compressSteps (compressSteps σ s).1 t).1,
       (compressSteps σ s).2 ++ (compressSteps (compressSteps σ s).1 t).2) := by
  induction s with
  | nil => intro σ; simp [compressSteps]
  | cons b rest ih =>
    intro σ
    simp [compressSteps, ih]

theorem range_map_update (f : Nat → Nat) (k v : Nat) :
    (List.range (k + 1)).map (updateFn f k v) = (List.range k).map f ++ [v] := by
  rw [List.range_succ, List.map_append]
  congr 1
  · apply List.map_congr_left
    intro i hi
    have hik : i ≠ k := Nat.ne_of_lt (List.mem_range.mp hi)
    simp [updateFn, hik]
  · simp [updateFn]

theorem status_bits : ∀ n < 128,
    (n ||| 128) &&& 127 = n ∧ (n ||| 128) &&& 128 = 128 ∧
    n &&& 127 = n ∧ n &&& 128 = 0 := by decide

theorem CInv_init : CInv honk_compress_init := by
  constructor
  · intro _
    constructor
    · show (0 : Nat) ≤ 126
      decide
    · intro h
      simp [honk_compress_init] at h
  · intro h
    simp [honk_compress_init] at h


theorem pendingBytes_rle (cnt lb : Nat) (buf : Nat → Nat) :
    pendingBytes ⟨.rle, cnt, lb, buf⟩ = List.replicate cnt lb := rfl

theorem pendingBytes_block (cnt lb : Nat) (buf : Nat → Nat) :
    pendingBytes ⟨.block, cnt, lb, buf⟩ = (List.range cnt).map buf := rfl

theorem joinContents_nil : joinContents [] = [] := rfl

theorem joinContents_cons (c : Chunk) (cs : List Chunk) :
    joinContents (c :: cs) = chunkContents c ++ joinContents cs := by
  simp [joinContents]

theorem joinContents_append (cs ds : List Chunk) :
    joinContents (cs ++ ds) = joinContents cs ++ joinContents ds := by
  simp [joinContents]

theorem range_one_eq : List.range 1 = [0] := rfl

theorem CInv_rle (cnt lb : Nat) (buf : Nat → Nat) (h2 : 2 ≤ cnt)
    (h126 : cnt ≤ 126) : CInv ⟨.rle, cnt, lb, buf⟩ := by
  constructor
  · intro hc
    simp at hc
  · intro _
    exact ⟨h2, h126⟩

theorem CInv_blockS (cnt lb : Nat) (buf : Nat → Nat) (h126 : cnt ≤ 126)
    (hlast : 0 < cnt → lb = buf (cnt - 1)) : CInv ⟨.block, cnt, lb, buf⟩ := by
  constructor
  · intro _
    exact ⟨h126, hlast⟩
  · intro hc
    simp at hc

theorem CInv_block0 (lb : Nat) (buf : Nat → Nat) : CInv ⟨.block, 0, lb, buf⟩ :=
  CInv_blockS 0 lb buf (by omega) (fun hpos => absurd hpos (by omega))

theorem compress_step_inv (σ : CompressState) (b : Nat) (h : CInv σ) :
    CInv (honk_compress_process_byte σ b).1 ∧
    (∀ c ∈ (honk_compress_process_byte σ b).2, chunkWF c) ∧
    joinContents (honk_compress_process_byte σ b).2 ++
      pendingBytes (honk_compress_process_byte σ b).1 =
      pendingBytes σ ++ [b] := by
  obtain ⟨st, cnt, lb, buf⟩ := σ
  cases st with
  | rle =>
    obtain ⟨hcnt2, hcnt126⟩ := h.2 rfl
    simp only at hcnt2 hcnt126
    by_cases hb : b = lb
    · subst hb
      by_cases hfull : cnt + 1 = 127
      · have hc : cnt = 126 := by omega
        subst hc
        have hstep : honk_compress_process_byte ⟨.rle, 126, b, buf⟩ b =
            (⟨.block, 0, b, buf⟩, [Chunk.rle b 127]) := by
          simp [honk_compress_process_byte]
        rw [hstep]
        refine ⟨CInv_block0 b buf, ?_, ?_⟩
        · intro c hc
          simp at hc
          subst hc
          exact ⟨by omega, by omega⟩
        · rw [joinContents_cons, joinContents_nil, pendingBytes_rle, pendingBytes_block]
          simp [chunkContents]
      · have hstep : honk_compress_process_byte ⟨.rle, cnt, b, buf⟩ b =
            (⟨.rle, cnt + 1, b, buf⟩, []) := by
          simp [honk_compress_process_byte, hfull]
        rw [hstep]
        refine ⟨CInv_rle (cnt + 1) b buf (by omega) (by omega), ?_, ?_⟩
        · intro c hc
          simp at hc
        · rw [joinContents_nil, pendingBytes_rle, pendingBytes_rle]
          simp [List.replicate_succ']
    · have hstep : honk_compress_process_byte ⟨.rle, cnt, lb, buf⟩ b =
          (⟨.block, 1, b, updateFn buf 0 b⟩, [Chunk.rle lb cnt]) := by
        simp [honk_compress_process_byte, hb]
      rw [hstep]
      refine ⟨CInv_blockS 1 b (updateFn buf 0 b) (by omega)
        (fun _ => by simp [updateFn]), ?_, ?_⟩
      · intro c hc
        simp at hc
        subst hc
        exact ⟨hcnt2, by omega⟩
      · rw [joinContents_cons, joinContents_nil, pendingBytes_rle, pendingBytes_block]
        rw [range_one_eq]
        simp [chunkContents, updateFn]
  | block =>
    obtain ⟨hcnt126, hlast0⟩ := h.1 rfl
    simp only at hcnt126 hlast0
    by_cases hrun : 0 < cnt ∧ b = lb
    · obtain ⟨hpos, hbl⟩ := hrun
      subst hbl
      have hlast : b = buf (cnt - 1) := hlast0 hpos
      by_cases hone : 0 < cnt - 1
      · obtain ⟨m, hm⟩ : ∃ m, cnt = m + 1 := ⟨cnt - 1, by omega⟩
        subst hm
        simp only [Nat.add_sub_cancel] at hlast hone
        have hstep : honk_compress_process_byte ⟨.block, m + 1, b, buf⟩ b =
            (⟨.rle, 2, b, buf⟩, [Chunk.lit ((List.range m).map buf)]) := by
          simp [honk_compress_process_byte, hone]
        rw [hstep]
        refine ⟨CInv_rle 2 b buf (by omega) (by omega), ?_, ?_⟩
        · intro c hc
          simp at hc
          subst hc
          simp [chunkWF]
          omega
        · rw [joinContents_cons, joinContents_nil, pendingBytes_rle, pendingBytes_block]
          rw [List.range_succ, List.map_append, hlast]
          simp [chunkContents, List.replicate_succ]
      · have hc1 : cnt = 1 := by omega
        subst hc1
        have hlast1 : b = buf 0 := hlast
        have hstep : honk_compress_process_byte ⟨.block, 1, b, buf⟩ b =
            (⟨.rle, 2, b, buf⟩, []) := by
          simp [honk_compress_process_byte]
        rw [hstep]
        refine ⟨CInv_rle 2 b buf (by omega) (by omega), ?_, ?_⟩
        · intro c hc
          simp at hc
        · rw [joinContents_nil, pendingBytes_rle, pendingBytes_block]
          rw [range_one_eq, hlast1]
          simp [List.replicate_succ]
    · by_cases hfull : cnt + 1 = 127
      · have hc : cnt = 126 := by omega
        subst hc
        have hbl : ¬b = lb := fun hbl => hrun ⟨by omega, hbl⟩
        have hstep : honk_compress_process_byte ⟨.block, 126, lb, buf⟩ b =
            (⟨.block, 0, lb, updateFn buf 126 b⟩,
             [Chunk.lit ((List.range 127).map (updateFn buf 126 b))]) := by
          simp [honk_compress_process_byte, hbl]
        rw [hstep]
        refine ⟨CInv_block0 lb (updateFn buf 126 b), ?_, ?_⟩
        · intro c hc
          simp at hc
          subst hc
          simp [chunkWF]
        · rw [joinContents_cons, joinContents_nil, pendingBytes_block, pendingBytes_block]
          rw [show (127 : Nat) = 126 + 1 from rfl, range_map_update]
          simp [chunkContents]
      · have hstep : honk_compress_process_byte ⟨.block, cnt, lb, buf⟩ b =
            (⟨.block, cnt + 1, b, updateFn buf cnt b⟩, []) := by
          simp [honk_compress_process_byte, hrun, hfull]
        rw [hstep]
        refine ⟨CInv_blockS (cnt + 1) b (updateFn buf cnt b) (by omega)
          (fun _ => by simp [updateFn]), ?_, ?_⟩
        · intro c hc
          simp at hc
        · rw [joinContents_nil, pendingBytes_block, pendingBytes_block]
          rw [range_map_update]
          simp

theorem compressSteps_inv (s : List Nat) : ∀ σ : CompressState, CInv σ →
    CInv (compressSteps σ s).1 ∧
    (∀ c ∈ (compressSteps σ s).2, chunkWF c) ∧
    joinContents (compressSteps σ s).2 ++ pendingBytes (compressSteps σ s).1 =
      pendingBytes σ ++ s := by
  induction s with
  | nil =>
    intro σ h
    refine ⟨h, ?_, ?_⟩
    · intro c hc
      simp [compressSteps] at hc
    · simp [compressSteps, joinContents]
  | cons b rest ih =>
    intro σ h
    obtain ⟨h1, h2, h3⟩ := compress_step_inv σ b h
    obtain ⟨g1, g2, g3⟩ := ih (honk_compress_process_byte σ b).1 h1
    refine ⟨?_, ?_, ?_⟩
    · simpa [compressSteps] using g1
    · intro c hc
      simp [compressSteps] at hc
      rcases hc with hc | hc
      · exact h2 c hc
      · exact g2 c hc
    · simp only [compressSteps]
      rw [joinContents_append, List.append_assoc, g3, ← List.append_assoc, h3,
        List.append_assoc]
      simp

theorem compress_finalize_inv (σ : CompressState) (h : CInv σ) :
    (∀ c ∈ honk_compress_finalize σ, chunkWF c) ∧
    joinContents (honk_compress_finalize σ) = pendingBytes σ := by
  obtain ⟨st, cnt, lb, buf⟩ := σ
  cases st with
  | rle =>
    obtain ⟨h2, h126⟩ := h.2 rfl
    simp only at h2 h126
    constructor
    · intro c hc
      simp [honk_compress_finalize] at hc
      subst hc
      exact ⟨h2, by omega⟩
    · rw [pendingBytes_rle]
      simp [honk_compress_finalize, joinContents, chunkContents]
  | block =>
    obtain ⟨h126, _⟩ := h.1 rfl
    simp only at h126
    by_cases hpos : 0 < cnt
    · constructor
      · intro c hc
        simp [honk_compress_finalize, hpos] at hc
        subst hc
        simp [chunkWF]
        omega
      · rw [pendingBytes_block]
        simp [honk_compress_finalize, hpos, joinContents, chunkContents]
    · have hc0 : cnt = 0 := by omega
      subst hc0
      constructor
      · intro c hc
        simp [honk_compress_finalize] at hc
      · rw [pendingBytes_block]
        simp [honk_compress_finalize, joinContents]

theorem compressChunks_wf (s : List Nat) : ∀ c ∈ compressChunks s, chunkWF c := by
  intro c hc
  obtain ⟨h1, h2, _⟩ := compressSteps_inv s honk_compress_init CInv_init
  obtain ⟨f1, _⟩ := compress_finalize_inv _ h1
  simp [compressChunks] at hc
  rcases hc with hc | hc
  · exact h2 c hc
  · exact f1 c hc

theorem compressChunks_contents (s : List Nat) :
    joinContents (compressChunks s) = s := by
  obtain ⟨h1, _, h3⟩ := compressSteps_inv s honk_compress_init CInv_init
  obtain ⟨_, f2⟩ := compress_finalize_inv _ h1
  simp only [compressChunks]
  rw [joinContents_append, f2, h3]
  simp [pendingBytes, honk_compress_init]

theorem CInv_count_le (σ : CompressState) (h : CInv σ) :
    σ.compress_bytes_count ≤ 126 := by
  cases hst : σ.compress_state with
  | rle => exact (h.2 hst).2
  | block => exact (h.1 hst).1

theorem write_status_byte_rle (n : Nat) (h : n ≤ 127) :
    write_status_byte true n = n ||| 128 := by
  simp only [write_status_byte]
  rw [Nat.mod_eq_of_lt (show n < 256 by omega)]
  rw [show ((1 : Nat) <<< 7) = 128 from rfl]
  simp

theorem write_status_byte_lit (n : Nat) (h : n ≤ 127) :
    write_status_byte false n = n := by
  simp only [write_status_byte]
  rw [Nat.mod_eq_of_lt (show n < 256 by omega)]
  simp

theorem decompressSteps_cons (σ : DecompressState) (b : Nat) (rest : List Nat) :
    decompressSteps σ (b :: rest) =
      ((decompressSteps (honk_decompress_process_byte σ b).1 rest).1,
       (honk_decompress_process_byte σ b).2 ++
         (decompressSteps (honk_decompress_process_byte σ b).1 rest).2) := rfl

theorem decode_block_bytes : ∀ (l : List Nat), l ≠ [] → ∀ (rest : List Nat),
    decompressSteps ⟨.block, l.length⟩ (l ++ rest) =
      ((decompressSteps ⟨.status, 0⟩ rest).1,
       l ++ (decompressSteps ⟨.status, 0⟩ rest).2) := by
  intro l
  induction l with
  | nil => intro h; exact absurd rfl h
  | cons x t ih =>
    intro _ rest
    cases t with
    | nil =>
      simp [decompressSteps, honk_decompress_process_byte]
    | cons y t2 =>
      have hstep : honk_decompress_process_byte ⟨.block, (x :: y :: t2).length⟩ x =
          (⟨.block, (y :: t2).length⟩, [x]) := by
        simp [honk_decompress_process_byte]
      show decompressSteps ⟨.block, (x :: y :: t2).length⟩
          (x :: ((y :: t2) ++ rest)) = _
      rw [decompressSteps_cons, hstep]
      rw [ih (by simp) rest]
      simp

theorem decode_chunk (c : Chunk) (h1 : 1 ≤ declaredLength c)
    (h127 : declaredLength c ≤ 127) : ∀ (rest : List Nat) (cnt0 : Nat),
    decompressSteps ⟨.status, cnt0⟩ (encodeChunk c ++ rest) =
      ((decompressSteps ⟨.status, afterCount c⟩ rest).1,
       chunkContents c ++ (decompressSteps ⟨.status, afterCount c⟩ rest).2) := by
  cases c with
  | rle b n =>
    intro rest cnt0
    simp only [declaredLength] at h1 h127
    obtain ⟨hbits1, hbits2, _, _⟩ := status_bits n (by omega)
    have hst : write_status_byte true n = n ||| 128 := write_status_byte_rle n h127
    show decompressSteps ⟨.status, cnt0⟩
        (write_status_byte true n :: b :: rest) = _
    rw [hst]
    have hproc1 : honk_decompress_process_byte ⟨.status, cnt0⟩ (n ||| 128) =
        (⟨.rle, n⟩, []) := by
      simp only [honk_decompress_process_byte]
      rw [show ((1 : Nat) <<< 7) = 128 from rfl, hbits1, hbits2]
      simp [show n ≠ 0 from by omega]
    have hproc2 : honk_decompress_process_byte ⟨.rle, n⟩ b =
        (⟨.status, n⟩, List.replicate n b) := by
      simp [honk_decompress_process_byte]
    simp only [decompressSteps, hproc1, hproc2]
    simp [chunkContents, afterCount]
  | lit l =>
    intro rest cnt0
    simp only [declaredLength] at h1 h127
    obtain ⟨_, _, hbits3, hbits4⟩ := status_bits l.length (by omega)
    have hst : write_status_byte false l.length = l.length :=
      write_status_byte_lit _ h127
    show decompressSteps ⟨.status, cnt0⟩
        (write_status_byte false l.length :: (l ++ rest)) = _
    rw [hst]
    have hproc1 : honk_decompress_process_byte ⟨.status, cnt0⟩ l.length =
        (⟨.block, l.length⟩, []) := by
      simp only [honk_decompress_process_byte]
      rw [show ((1 : Nat) <<< 7) = 128 from rfl, hbits3, hbits4]
      simp [show l.length ≠ 0 from by omega]
    simp only [decompressSteps, hproc1]
    rw [decode_block_bytes l (by intro hl; rw [hl] at h1; simp at h1) rest]
    simp [chunkContents, afterCount]

theorem decode_stream : ∀ (cs : List Chunk),
    (∀ c ∈ cs, 1 ≤ declaredLength c ∧ declaredLength c ≤ 127) →
    ∀ cnt0 : Nat, ∃ cnt1 : Nat,
    decompressSteps ⟨.status, cnt0⟩ ((cs.map encodeChunk).flatten) =
      (⟨.status, cnt1⟩, joinContents cs) := by
  intro cs
  induction cs with
  | nil =>
    intro _ cnt0
    exact ⟨cnt0, by simp [decompressSteps, joinContents]⟩
  | cons c cs ih =>
    intro hwf cnt0
    obtain ⟨cnt1, hrec⟩ := ih (fun d hd => hwf d (by simp [hd])) (afterCount c)
    refine ⟨cnt1, ?_⟩
    have hc := hwf c (by simp)
    rw [List.map_cons, List.flatten_cons, decode_chunk c hc.1 hc.2, hrec,
      joinContents_cons]

theorem chunkWF_declared (c : Chunk) (h : chunkWF c) :
    1 ≤ declaredLength c ∧ declaredLength c ≤ 127 := by
  cases c with
  | rle b n =>
    obtain ⟨ha, hb⟩ := h
    refine ⟨?_, ?_⟩ <;> simp only [declaredLength] <;> omega
  | lit l => exact h

/-- C1: feeding any finite byte sequence S byte by byte through the
compress state machine (honk_compress_process_byte then
honk_compress_finalize) and feeding the resulting encoded stream byte by
byte through the decompress state machine reconstructs exactly S, and
leaves the decompressor in the status (AWAIT_STATUS) state, so
honk_decompress_finalize accepts the stream. -/
theorem c1_round_trip (s : List Nat) (hbytes : ∀ b ∈ s, b < 256) :
    (decompressSteps honk_decompress_init (compress s)).2 = s ∧
    (decompressSteps honk_decompress_init (compress s)).1.decompress_state =
      honk_decompress_state_t.status := by
  obtain ⟨cnt1, h⟩ := decode_stream (compressChunks s)
    (fun c hc => chunkWF_declared c (compressChunks_wf s c hc)) 0
  have hcomp : compress s = ((compressChunks s).map encodeChunk).flatten := rfl
  have hinit : honk_decompress_init = (⟨.status, 0⟩ : DecompressState) := rfl
  rw [hcomp, hinit, h, compressChunks_contents s]
  exact ⟨rfl, rfl⟩

/-- Witness for c1_round_trip at the concrete input [1,1,1,2,3]. -/
theorem c1_round_trip_witness :
    (∀ b ∈ [1, 1, 1, 2, 3], b < 256) ∧
    ((decompressSteps honk_decompress_init (compress [1, 1, 1, 2, 3])).2 =
        [1, 1, 1, 2, 3] ∧
     (decompressSteps honk_decompress_init
        (compress [1, 1, 1, 2, 3])).1.decompress_state =
        honk_decompress_state_t.status) :=
  ⟨by decide, c1_round_trip [1, 1, 1, 2, 3] (by decide)⟩

/-- C4: every chunk the compressor emits, during processing or at finalize,
has declared length between 1 and 127; no zero-length chunk is emitted. -/
theorem c4_chunk_length_bounds (s : List Nat) (c : Chunk)
    (hc : c ∈ compressChunks s) :
    1 ≤ declaredLength c ∧ declaredLength c ≤ 127 :=
  chunkWF_declared c (compressChunks_wf s c hc)

/-- Witness for c4_chunk_length_bounds: the single literal chunk emitted
for the input [65]. -/
theorem c4_witness :
    Chunk.lit [65] ∈ compressChunks [65] ∧
    (1 ≤ declaredLength (Chunk.lit [65]) ∧
     declaredLength (Chunk.lit [65]) ≤ 127) :=
  ⟨by decide, c4_chunk_length_bounds [65] (Chunk.lit [65]) (by decide)⟩

/-- C9: every RLE chunk the compressor emits, during processing or at
finalize, has length in [2,127]; a run of length 1 is never produced. -/
theorem c9_rle_length_bounds (s : List Nat) (b n : Nat)
    (hc : Chunk.rle b n ∈ compressChunks s) : 2 ≤ n ∧ n ≤ 127 :=
  compressChunks_wf s (Chunk.rle b n) hc

/-- Witness for c9_rle_length_bounds: the run chunk emitted for [7,7]. -/
theorem c9_witness :
    Chunk.rle 7 2 ∈ compressChunks [7, 7] ∧ (2 ≤ 2 ∧ (2 : Nat) ≤ 127) :=
  ⟨by decide, c9_rle_length_bounds [7, 7] 7 2 (by decide)⟩

/-- C10: after honk_compress_init and after processing any byte sequence,
compress_bytes_count is at most 126, so every store into the 127-slot
block buffer at index compress_bytes_count is within bounds. -/
theorem c10_count_bound (s : List Nat) :
    honk_compress_init.compress_bytes_count ≤ 126 ∧
    (compressSteps honk_compress_init s).1.compress_bytes_count ≤ 126 :=
  ⟨by decide, CInv_count_le _ (compressSteps_inv s honk_compress_init CInv_init).1⟩

/-- C8: in the AWAIT_STATUS state, a status byte whose low 7 bits are zero
is consumed with no output and the machine stays in AWAIT_STATUS. -/
theorem c8_zero_length_status (b cnt : Nat) (hbyte : b < 256)
    (hlow : b &&& 127 = 0) :
    honk_decompress_process_byte ⟨.status, cnt⟩ b = (⟨.status, 0⟩, []) := by
  simp only [honk_decompress_process_byte]
  rw [hlow]
  simp

/-- Witness for c8_zero_length_status at the status byte 0x80. -/
theorem c8_witness :
    (128 : Nat) < 256 ∧ ((128 : Nat) &&& 127) = 0 ∧
    honk_decompress_process_byte ⟨.status, 7⟩ 128 = (⟨.status, 0⟩, []) :=
  ⟨by decide, by decide, c8_zero_length_status 128 7 (by decide) (by decide)⟩

theorem compressSteps_cons (σ : CompressState) (b : Nat) (rest : List Nat) :
    compressSteps σ (b :: rest) =
      ((compressSteps (honk_compress_process_byte σ b).1 rest).1,
       (honk_compress_process_byte σ b).2 ++
         (compressSteps (honk_compress_process_byte σ b).1 rest).2) := rfl

/-- C5: a run is opened exactly when the second of two consecutive equal
bytes arrives: in BLOCK state with a positive count and a byte equal to
last_byte, the pending block minus its trailing byte is emitted as a
LITERAL chunk (skipped when empty) and the machine enters RLE with count
2; consequently two equal bytes followed by a different byte compress to
one RUN chunk of length 2 followed by the literal chunk for the new byte,
not to fragmented literal bytes. -/
theorem c5_run_open :
    (∀ (σ : CompressState) (b : Nat), σ.compress_state = .block →
      0 < σ.compress_bytes_count → b = σ.last_byte →
      honk_compress_process_byte σ b =
        ({ σ with compress_bytes_count := 2, compress_state := .rle },
         if 0 < σ.compress_bytes_count - 1 then
           [Chunk.lit ((List.range (σ.compress_bytes_count - 1)).map σ.block)]
         else [])) ∧
    (∀ x y : Nat, x < 256 → y < 256 → x ≠ y →
      compressChunks [x, x, y] = [Chunk.rle x 2, Chunk.lit [y]]) := by
  constructor
  · intro σ b hst hpos hb
    obtain ⟨st, cnt, lb, buf⟩ := σ
    simp only at hst hpos hb
    subst hst
    subst hb
    simp [honk_compress_process_byte, hpos]
  · intro x y hx hy hxy
    have hyx : ¬y = x := fun h => hxy h.symm
    simp [compressChunks, compressSteps, honk_compress_process_byte,
      honk_compress_init, honk_compress_finalize, updateFn, hyx, range_one_eq]

/-- Witness for c5_run_open: the transition at a concrete block state with
three pending bytes, and the concrete input [0,0,1]. -/
theorem c5_witness :
    honk_compress_process_byte ⟨.block, 3, 9, fun _ => 9⟩ 9 =
      (⟨.rle, 2, 9, fun _ => 9⟩,
       [Chunk.lit ((List.range 2).map (fun _ => 9))]) ∧
    compressChunks [0, 0, 1] = [Chunk.rle 0 2, Chunk.lit [1]] := by
  constructor
  · have h := c5_run_open.1 ⟨.block, 3, 9, fun _ => 9⟩ 9 rfl (by decide) rfl
    simpa using h
  · exact c5_run_open.2 0 1 (by decide) (by decide) (by decide)

theorem rle_absorb (b : Nat) (buf : Nat → Nat) : ∀ (j k : Nat), k + j ≤ 126 →
    compressSteps ⟨.rle, k, b, buf⟩ (List.replicate j b) =
      (⟨.rle, k + j, b, buf⟩, []) := by
  intro j
  induction j with
  | zero =>
    intro k _
    simp [compressSteps]
  | succ m ih =>
    intro k hk
    have hstep : honk_compress_process_byte ⟨.rle, k, b, buf⟩ b =
        (⟨.rle, k + 1, b, buf⟩, []) := by
      simp [honk_compress_process_byte, show ¬(k + 1 = 127) from by omega]
    rw [List.replicate_succ, compressSteps_cons, hstep, ih (k + 1) (by omega)]
    have hadd : k + 1 + m = k + (m + 1) := by omega
    rw [hadd]
    simp

theorem run_cycle (b lb : Nat) (buf : Nat → Nat) :
    compressSteps ⟨.block, 0, lb, buf⟩ (List.replicate 127 b) =
      (⟨.block, 0, b, updateFn buf 0 b⟩, [Chunk.rle b 127]) := by
  have h1 : honk_compress_process_byte ⟨.block, 0, lb, buf⟩ b =
      (⟨.block, 1, b, updateFn buf 0 b⟩, []) := by
    simp [honk_compress_process_byte]
  have h2 : honk_compress_process_byte ⟨.block, 1, b, updateFn buf 0 b⟩ b =
      (⟨.rle, 2, b, updateFn buf 0 b⟩, []) := by
    simp [honk_compress_process_byte]
  have h3 : honk_compress_process_byte ⟨.rle, 126, b, updateFn buf 0 b⟩ b =
      (⟨.block, 0, b, updateFn buf 0 b⟩, [Chunk.rle b 127]) := by
    simp [honk_compress_process_byte]
  have hsplit : List.replicate 127 b = b :: b :: (List.replicate 124 b ++ [b]) := by
    rw [show (127 : Nat) = 125 + 1 + 1 from rfl, List.replicate_succ,
      List.replicate_succ, show (125 : Nat) = 124 + 1 from rfl,
      List.replicate_succ']
  rw [hsplit, compressSteps_cons, h1, compressSteps_cons, h2, compressSteps_append,
    rle_absorb b (updateFn buf 0 b) 124 2 (by omega)]
  have h226 : (2 : Nat) + 124 = 126 := rfl
  rw [h226, compressSteps_cons, h3]
  simp [compressSteps]

theorem run_tail (b lb : Nat) (buf : Nat → Nat) (r : Nat) (hr2 : 2 ≤ r)
    (hr126 : r ≤ 126) :
    compressSteps ⟨.block, 0, lb, buf⟩ (List.replicate r b) =
      (⟨.rle, r, b, updateFn buf 0 b⟩, []) := by
  obtain ⟨m, hm⟩ : ∃ m, r = m + 2 := ⟨r - 2, by omega⟩
  subst hm
  have h1 : honk_compress_process_byte ⟨.block, 0, lb, buf⟩ b =
      (⟨.block, 1, b, updateFn buf 0 b⟩, []) := by
    simp [honk_compress_process_byte]
  have h2 : honk_compress_process_byte ⟨.block, 1, b, updateFn buf 0 b⟩ b =
      (⟨.rle, 2, b, updateFn buf 0 b⟩, []) := by
    simp [honk_compress_process_byte]
  have hsplit : List.replicate (m + 2) b = b :: b :: List.replicate m b := by
    rw [show m + 2 = m + 1 + 1 from rfl, List.replicate_succ, List.replicate_succ]
  rw [hsplit, compressSteps_cons, h1, compressSteps_cons, h2,
    rle_absorb b (updateFn buf 0 b) m 2 (by omega)]
  have hadd : 2 + m = m + 2 := by omega
  rw [hadd]
  simp

/-- C6: compressing 300 identical bytes yields exactly three RUN chunks of
lengths 127, 127 and 46 in that order. -/
theorem c6_long_run (b : Nat) (hb : b < 256) :
    compressChunks (List.replicate 300 b) =
      [Chunk.rle b 127, Chunk.rle b 127, Chunk.rle b 46] := by
  have hsplit : List.replicate 300 b =
      List.replicate 127 b ++ (List.replicate 127 b ++ List.replicate 46 b) := by
    rw [← List.replicate_add, ← List.replicate_add]
  have hinit : honk_compress_init = (⟨.block, 0, 0, fun _ => 0⟩ : CompressState) :=
    rfl
  simp only [compressChunks]
  rw [hinit, hsplit, compressSteps_append, run_cycle, compressSteps_append,
    run_cycle, run_tail b b _ 46 (by omega) (by omega)]
  simp [honk_compress_finalize]

/-- Witness for c6_long_run at the byte 65. -/
theorem c6_witness :
    (65 : Nat) < 256 ∧
    compressChunks (List.replicate 300 65) =
      [Chunk.rle 65 127, Chunk.rle 65 127, Chunk.rle 65 46] :=
  ⟨by decide, c6_long_run 65 (by decide)⟩

theorem litRun_props : ∀ (s pending : List Nat), pending.length ≤ 126 →
    (∀ c ∈ (litRun pending s).1, ∃ l, c = Chunk.lit l ∧ l.length = 127) ∧
    joinContents (litRun pending s).1 ++ (litRun pending s).2 = pending ++ s ∧
    (litRun pending s).1.length = (pending.length + s.length) / 127 ∧
    (litRun pending s).2.length = (pending.length + s.length) % 127 := by
  intro s
  induction s with
  | nil =>
    intro pending hp
    simp [litRun, joinContents]
    constructor
    · omega
    · omega
  | cons b rest ih =>
    intro pending hp
    by_cases hfull : pending.length + 1 = 127
    · obtain ⟨ih1, ih2, ih3, ih4⟩ := ih [] (by simp)
      simp only [litRun, if_pos hfull]
      refine ⟨?_, ?_, ?_, ?_⟩
      · intro c hc
        rcases List.mem_cons.mp hc with hc | hc
        · exact ⟨pending ++ [b], hc, by simp; omega⟩
        · exact ih1 c hc
      · rw [joinContents_cons]
        simp only [chunkContents]
        rw [List.append_assoc, ih2]
        simp
      · simp only [List.length_cons, ih3]
        simp only [List.length_nil, List.length_cons]
        omega
      · simp only [ih4, List.length_nil, List.length_cons]
        omega
    · obtain ⟨ih1, ih2, ih3, ih4⟩ := ih (pending ++ [b]) (by simp; omega)
      simp only [litRun, if_neg hfull]
      refine ⟨ih1, ?_, ?_, ?_⟩
      · rw [ih2]
        simp
      · rw [ih3]
        simp
        omega
      · rw [ih4]
        simp
        omega

theorem block_accum (s : List Nat) : ∀ (cnt lb : Nat) (buf : Nat → Nat),
    cnt ≤ 126 →
    (0 < cnt → lb = buf (cnt - 1)) →
    List.Chain' (· ≠ ·) ((if 0 < cnt then [lb] else []) ++ s) →
    (compressSteps ⟨.block, cnt, lb, buf⟩ s).2 =
        (litRun ((List.range cnt).map buf) s).1 ∧
    (compressSteps ⟨.block, cnt, lb, buf⟩ s).1.compress_state = .block ∧
    pendingBytes (compressSteps ⟨.block, cnt, lb, buf⟩ s).1 =
        (litRun ((List.range cnt).map buf) s).2 := by
  induction s with
  | nil =>
    intro cnt lb buf h126 hlast hchain
    exact ⟨rfl, rfl, rfl⟩
  | cons b rest ih =>
    intro cnt lb buf h126 hlast hchain
    by_cases hpos : 0 < cnt
    · rw [if_pos hpos] at hchain
      have hlb : lb ≠ b := (List.chain'_cons.mp hchain).1
      have hchain2 : List.Chain' (· ≠ ·) (b :: rest) := (List.chain'_cons.mp hchain).2
      have hbl : ¬b = lb := fun h => hlb h.symm
      by_cases hfull : cnt + 1 = 127
      · have hc : cnt = 126 := by omega
        subst hc
        have hstep : honk_compress_process_byte ⟨.block, 126, lb, buf⟩ b =
            (⟨.block, 0, lb, updateFn buf 126 b⟩,
             [Chunk.lit ((List.range 127).map (updateFn buf 126 b))]) := by
          simp [honk_compress_process_byte, hbl]
        obtain ⟨g1, g2, g3⟩ := ih 0 lb (updateFn buf 126 b) (by omega)
          (fun h => absurd h (by omega)) (by simpa using hchain2.tail)
        simp only [List.range_zero, List.map_nil] at g1 g3
        have hplen : ((List.range 126).map buf).length + 1 = 127 := by simp
        have h127eq : (List.range 127).map (updateFn buf 126 b) =
            (List.range 126).map buf ++ [b] := range_map_update buf 126 b
        rw [compressSteps_cons, hstep]
        simp only [litRun, if_pos hplen]
        refine ⟨?_, g2, by simpa using g3⟩
        rw [g1, h127eq]
        simp
      · have hstep : honk_compress_process_byte ⟨.block, cnt, lb, buf⟩ b =
            (⟨.block, cnt + 1, b, updateFn buf cnt b⟩, []) := by
          simp [honk_compress_process_byte, hbl, hfull]
        obtain ⟨g1, g2, g3⟩ := ih (cnt + 1) b (updateFn buf cnt b) (by omega)
          (fun _ => by simp [updateFn])
          (by rw [if_pos (by omega : 0 < cnt + 1)]; exact hchain2)
        have hupd : (List.range (cnt + 1)).map (updateFn buf cnt b) =
            (List.range cnt).map buf ++ [b] := range_map_update buf cnt b
        rw [hupd] at g1 g3
        rw [compressSteps_cons, hstep]
        have hplen : ¬(((List.range cnt).map buf).length + 1 = 127) := by
          simp
          omega
        simp only [litRun, if_neg hplen]
        exact ⟨by simpa using g1, g2, g3⟩
    · have hc : cnt = 0 := by omega
      subst hc
      rw [if_neg hpos] at hchain
      simp only [List.nil_append] at hchain
      have hstep : honk_compress_process_byte ⟨.block, 0, lb, buf⟩ b =
          (⟨.block, 1, b, updateFn buf 0 b⟩, []) := by
        simp [honk_compress_process_byte]
      obtain ⟨g1, g2, g3⟩ := ih 1 b (updateFn buf 0 b) (by omega)
        (fun _ => by simp [updateFn])
        (by rw [if_pos (by omega : (0 : Nat) < 1)]; exact hchain)
      have hupd : (List.range 1).map (updateFn buf 0 b) =
          (List.range 0).map buf ++ [b] := range_map_update buf 0 b
      rw [hupd] at g1 g3
      rw [compressSteps_cons, hstep]
      have hplen : ¬(((List.range 0).map buf).length + 1 = 127) := by simp
      simp only [litRun, if_neg hplen]
      exact ⟨by simpa using g1, g2, g3⟩

/-- C7: compressing 300 bytes in which no two adjacent bytes are equal
produces exactly three LITERAL chunks of lengths 127, 127 and 46, in that
order, whose payloads concatenate to the input. -/
theorem c7_long_literal (s : List Nat) (hlen : s.length = 300)
    (hchain : List.Chain' (· ≠ ·) s) (hbytes : ∀ b ∈ s, b < 256) :
    ∃ p1 p2 p3, compressChunks s = [Chunk.lit p1, Chunk.lit p2, Chunk.lit p3] ∧
      p1.length = 127 ∧ p2.length = 127 ∧ p3.length = 46 ∧
      p1 ++ p2 ++ p3 = s := by
  have hinit : honk_compress_init = (⟨.block, 0, 0, fun _ => 0⟩ : CompressState) :=
    rfl
  obtain ⟨g1, g2, g3⟩ := block_accum s 0 0 (fun _ => 0) (by omega)
    (fun h => absurd h (by omega)) (by simpa using hchain)
  simp only [List.range_zero, List.map_nil] at g1 g3
  obtain ⟨l1, l2, l3, l4⟩ := litRun_props s [] (by simp)
  have hA2 : (litRun [] s).1.length = 2 := by
    rw [l3, hlen]
    decide
  have hr46 : (litRun [] s).2.length = 46 := by
    rw [l4, hlen]
    decide
  obtain ⟨c1, c2, hA⟩ := List.length_eq_two.mp hA2
  obtain ⟨p1, hp1, hp1len⟩ := l1 c1 (by rw [hA]; simp)
  obtain ⟨p2, hp2, hp2len⟩ := l1 c2 (by rw [hA]; simp)
  subst hp1
  subst hp2
  rcases hσf : (compressSteps (⟨.block, 0, 0, fun _ => 0⟩ : CompressState) s).1
    with ⟨stf, cntf, lbf, buff⟩
  rw [hσf] at g2 g3
  simp only at g2
  subst g2
  rw [pendingBytes_block] at g3
  have hcnt46 : cntf = 46 := by
    have hlg := congrArg List.length g3
    simpa [hr46] using hlg
  subst hcnt46
  simp only [compressChunks]
  rw [hinit, hσf, g1, hA]
  refine ⟨p1, p2, (List.range 46).map buff, ?_, hp1len, hp2len, ?_, ?_⟩
  · simp [honk_compress_finalize]
  · simp
  · rw [g3]
    have hl2 := l2
    rw [hA] at hl2
    simpa [joinContents, chunkContents, List.append_assoc] using hl2

/-- Witness for c7_long_literal at the alternating input 0,1,0,1,... of
length 300. -/
theorem c7_witness :
    ((List.range 300).map (fun i => i % 2)).length = 300 ∧
    List.Chain' (· ≠ ·) ((List.range 300).map (fun i => i % 2)) ∧
    (∀ b ∈ (List.range 300).map (fun i => i % 2), b < 256) ∧
    (∃ p1 p2 p3,
      compressChunks ((List.range 300).map (fun i => i % 2)) =
        [Chunk.lit p1, Chunk.lit p2, Chunk.lit p3] ∧
      p1.length = 127 ∧ p2.length = 127 ∧ p3.length = 46 ∧
      p1 ++ p2 ++ p3 = (List.range 300).map (fun i => i % 2)) := by
  have hlen : ((List.range 300).map (fun i => i % 2)).length = 300 := by simp
  have hch : List.Chain' (· ≠ ·) ((List.range 300).map (fun i => i % 2)) := by
    rw [List.chain'_iff_get]
    intro i hi
    simp only [List.get_eq_getElem, List.getElem_map, List.getElem_range]
    omega
  have hby : ∀ b ∈ (List.range 300).map (fun i => i % 2), b < 256 := by
    intro b hb
    simp only [List.mem_map, List.mem_range] at hb
    obtain ⟨i, _, rfl⟩ := hb
    omega
  exact ⟨hlen, hch, hby, c7_long_literal _ hlen hch hby⟩

/-- C2 (code-bug evidence): decoding the truncated stream 0x05 0x01 0x02
0x03 — a status byte declaring a 5-byte literal block followed by only 3
payload bytes — leaves the decompressor outside AWAIT_STATUS, makes
honk_decompress_finalize print the bad-format line to stderr, and yet the
process exit status is 0: honk_decompress_finalize never calls exit and
main falls through to `return 0`. -/
theorem c2_truncated_exit_zero :
    (decompressSteps honk_decompress_init [5, 1, 2, 3]).1.decompress_state =
      honk_decompress_state_t.block ∧
    decompress_main [5, 1, 2, 3] =
      ([1, 2, 3], ["Error while decompressing: Bad format"], 0) := by
  decide

/-- C3 (code-bug evidence): compressing the single byte 0x41 against a
sink that accepts the first write (the status byte, an fputc) and rejects
the second (the fwrite of the literal payload in write_block) makes
write_block log the write error but continue: the invocation finishes
with exit status 0 instead of aborting, and the payload bytes are
dropped. -/
theorem c3_write_block_no_abort :
    (compress_main_io (fun i => i == 0) [65]).2 = 0 ∧
    (compress_main_io (fun i => i == 0) [65]).1.err = [writeErrMsg] ∧
    (compress_main_io (fun i => i == 0) [65]).1.out = [1] := by
  decide
